import Mathlib

/-!
Shallow embedding of the lexical-normalization pipeline of the AyurProject
repository, together with theorems settling the frozen claims about it.

The two source files embedded here are
`src/preprocessing/sanskrit_spell_checker.py` (namespace `Ayur.Spell`) and
`src/preprocessing/text_cleaning.py` (namespace `Ayur.Clean`).

Modelling conventions:
* Python strings are Lean `String`s; character-level work happens on
  `List Char` (`String.toList` / `String.mk`), so every definition is
  executable by kernel reduction.
* Python floats are modelled as exact rationals (`ℚ`); divisions of
  integer quantities are written with `mkRat`, whose value is exactly the
  quotient of the operands.  `Ayur.qmul` / `Ayur.qsub` compute rational
  product and difference through `mkRat` for the same reason.
* Python's `str.lower` / `str.upper` / `\w` / `\s` are modelled on their
  ASCII behaviour (plus the Devanagari block for `\w`, which the source
  regexes single out explicitly); all concrete inputs used in the
  theorems below are ASCII.
-/

namespace Ayur

/-- Rational product, computed via `mkRat` so that it reduces in the kernel.
Its value is the ordinary product of the two rationals. -/
def qmul (a b : ℚ) : ℚ := mkRat (a.num * b.num) (a.den * b.den)

/-- Rational difference, computed via `mkRat` so that it reduces in the
kernel.  Its value is the ordinary difference of the two rationals. -/
def qsub (a b : ℚ) : ℚ := mkRat (a.num * (b.den : Int) - b.num * (a.den : Int)) (a.den * b.den)

/-- Python `\s` (whitespace), ASCII model. -/
def is_py_space (c : Char) : Bool :=
  c == ' ' || c == '\t' || c == '\n' || c == '\r' || c == '\x0b' || c == '\x0c'

/-- Python `\w` (word character): ASCII alphanumerics, underscore, and the
Devanagari block U+0900–U+097F that the source regexes name explicitly. -/
def is_word_char (c : Char) : Bool :=
  c.isAlphanum || c == '_' || (decide (0x900 ≤ c.toNat) && decide (c.toNat ≤ 0x97F))

/-- Lowercase a character list (model of Python `str.lower`, ASCII). -/
def lower_list (l : List Char) : List Char := l.map Char.toLower

/-- Lowercase a string (model of Python `str.lower`, ASCII). -/
def py_lower (s : String) : String := String.mk (lower_list s.toList)

/-- Remove the characters satisfying `p` from both ends of a list
(model of Python `str.strip(chars)`). -/
def strip_chars (p : Char → Bool) (l : List Char) : List Char :=
  ((l.dropWhile p).reverse.dropWhile p).reverse

/-- Python `str.strip()` (no argument): strip whitespace from both ends. -/
def py_strip (s : String) : String := String.mk (strip_chars is_py_space s.toList)

/-- Does `hay` start with `needle`? -/
def sub_starts (needle hay : List Char) : Bool :=
  match needle, hay with
  | [], _ => true
  | _ :: _, [] => false
  | a :: as, b :: bs => a == b && sub_starts as bs

/-- Does `needle` occur contiguously inside `hay`? -/
def sub_occurs (needle hay : List Char) : Bool :=
  match hay with
  | [] => needle.isEmpty
  | _ :: cs => sub_starts needle hay || sub_occurs needle cs

/-- Case-sensitive substring test: `needle in hay` on Python strings. -/
def contains_sub (needle hay : String) : Bool := sub_occurs needle.toList hay.toList

end Ayur

namespace Ayur.Spell

/-!
Embedding of `src/preprocessing/sanskrit_spell_checker.py`
(`class SanskritSpellChecker`).  The mutable object state that
`correct_word` reads is collected in `Checker`; `vocab_lower` and the
trigram index are maintained as exact derived views of `vocab` in the
source (built in `__init__` / `add_words`), so here they are computed
from `vocab` directly.
-/

/-- State of a `SanskritSpellChecker` instance: `self.vocab` (a set,
kept as a duplicate-free list), `self.word_frequencies`, and `self.cache`
(a dict keyed by `(word, threshold)`, kept in insertion order). -/
structure Checker where
  vocab : List String
  word_frequencies : List (String × Nat)
  cache : List ((String × ℚ) × String)

/-- `self.max_cache_size = 10000`. -/
def max_cache_size : Nat := 10000

/-- `correct_word`'s own default for `max_candidates` (source line 278). -/
def correct_word_default_max_candidates : Nat := 10

/-- `_get_candidates_fast`'s own default for `max_candidates`
(source line 207); `correct_word` never uses it, since it always passes
its own `max_candidates` explicitly. -/
def get_candidates_fast_default_max_candidates : Nat := 50

/-- The punctuation set of `word.strip('.,;:!?"\'()[]{}')`. -/
def is_strip_punct_char (c : Char) : Bool :=
  (['.', ',', ';', ':', '!', '?', '\"', '\'', '(', ')', '[', ']', '{', '}']).contains c

/-- `word_clean = word.strip('.,;:!?"\'()[]{}')`. -/
def strip_punct (word : String) : String :=
  String.mk (strip_chars is_strip_punct_char word.toList)

/-- `_get_trigrams`: pad with `#` on both ends and collect the distinct
3-character windows (the source returns a set; we keep a deduplicated
list). -/
def get_trigrams (word : List Char) : List (List Char) :=
  let padded := '#' :: (word ++ ['#'])
  ((List.range (padded.length - 2)).map (fun i => (padded.drop i).take 3)).dedup

/-- Number of distinct trigrams of the (already lowercased, padded) query
word under which `cand` is indexed.  The trigram index maps a trigram `t`
to exactly the vocabulary words whose lowercased form has `t` among its
trigrams (`_build_trigram_index`), so the per-candidate vote accumulated
in `_get_candidates_fast` is this count. -/
def cand_votes (word_tris : List (List Char)) (cand : String) : Nat :=
  word_tris.countP (fun t => (get_trigrams (lower_list cand.toList)).contains t)

/-- `_get_candidates_fast`: vote for every vocabulary word sharing a
trigram with the query, sort by vote count descending, keep the top
`max_candidates`.  (The source iterates hash sets/dicts, so its order
among equal vote counts is unspecified; here candidates are visited in
vocabulary order.) -/
def get_candidates_fast (vocab : List String) (word : String) (max_candidates : Nat) :
    List String :=
  let tris := get_trigrams (lower_list word.toList)
  let voted := vocab.filter (fun c => decide (0 < cand_votes tris c))
  (List.insertionSort (fun a b => cand_votes tris b ≤ cand_votes tris a) voted).take
    max_candidates

/-- Fold a precomposed IAST letter to its base letter.  Model of
`_remove_diacritics` (NFD decomposition followed by dropping combining
marks), restricted to the diacritic letters the vocabulary uses; identity
on every other character (in particular on all of ASCII). -/
def fold_diacritic (c : Char) : Char :=
  if c == 'ā' then 'a' else if c == 'ī' then 'i' else if c == 'ū' then 'u'
  else if c == 'ṛ' then 'r' else if c == 'ṝ' then 'r' else if c == 'ḷ' then 'l'
  else if c == 'ṃ' then 'm' else if c == 'ḥ' then 'h' else if c == 'ñ' then 'n'
  else if c == 'ṅ' then 'n' else if c == 'ṇ' then 'n' else if c == 'ṭ' then 't'
  else if c == 'ḍ' then 'd' else if c == 'ś' then 's' else if c == 'ṣ' then 's'
  else c

/-- `_remove_diacritics` on a character list. -/
def remove_diacritics (l : List Char) : List Char := l.map fold_diacritic

/-- Length of the common prefix on which two lists agree (the length of a
matching block anchored at these two positions). -/
def match_len : List Char → List Char → Nat
  | a :: as, b :: bs => if a = b then match_len as bs + 1 else 0
  | _, _ => 0

/-- `difflib.SequenceMatcher.find_longest_match` (without the autojunk
heuristic, which only activates on sequences of length ≥ 200): the
longest matching block `(i, j, k)`, ties resolved towards the smallest
`i`, then the smallest `j`. -/
def find_longest_match (a b : List Char) : Nat × Nat × Nat :=
  (List.range a.length).foldl
    (fun best i =>
      (List.range b.length).foldl
        (fun best j =>
          let k := match_len (a.drop i) (b.drop j)
          if best.2.2 < k then (i, j, k) else best)
        best)
    (0, 0, 0)

/-- Total size of the Ratcliff–Obershelp matching blocks
(`SequenceMatcher.get_matching_blocks`): recursively take the longest
matching block and recurse on the pieces to its left and to its right.
The fuel argument only serves structural termination; it is always called
with fuel `≥ |a| + |b|`, which the recursion never exhausts. -/
def matches_total : Nat → List Char → List Char → Nat
  | 0, _, _ => 0
  | _, [], _ => 0
  | _, _, [] => 0
  | f + 1, a, b =>
    let m := find_longest_match a b
    if m.2.2 = 0 then 0
    else
      matches_total f (a.take m.1) (b.take m.2.1) + m.2.2 +
        matches_total f (a.drop (m.1 + m.2.2)) (b.drop (m.2.1 + m.2.2))

/-- `SequenceMatcher(None, a, b).ratio() = 2·M / (|a| + |b|)`
(and `1.0` when both inputs are empty). -/
def seq_match_score (a b : List Char) : ℚ :=
  if a.length + b.length = 0 then 1
  else mkRat (2 * matches_total (a.length + b.length) a b) (a.length + b.length)

/-- `_similarity_score`: 1.0 on equal lowercased words, 0.95 on equality
after diacritic folding, otherwise the `SequenceMatcher` ratio scaled by
`1 - 0.3 · |len₁ - len₂| / max(len₁, len₂)`. -/
def similarity_score (word1 word2 : String) : ℚ :=
  let w1 := lower_list word1.toList
  let w2 := lower_list word2.toList
  if w1 = w2 then 1
  else if remove_diacritics w1 = remove_diacritics w2 then mkRat 95 100
  else
    let r := seq_match_score w1 w2
    let len_penalty : ℚ :=
      mkRat (((w1.length : Int) - (w2.length : Int)).natAbs) (max w1.length w2.length)
    qmul r (qsub 1 (qmul len_penalty (mkRat 3 10)))

/-- `self.word_frequencies.get(candidate, 1)`. -/
def freq_of (freqs : List (String × Nat)) (c : String) : Nat :=
  ((freqs.find? (fun p => decide (p.1 = c))).map (fun p => p.2)).getD 1

/-- Descending order on scored candidates by `(score, frequency)`:
the order produced by `scored_candidates.sort(key=lambda x: (x[1], x[2]),
reverse=True)`. -/
def scored_ge (a b : String × ℚ × Nat) : Prop :=
  b.2.1 < a.2.1 ∨ (b.2.1 = a.2.1 ∧ b.2.2 ≤ a.2.2)

instance : DecidableRel scored_ge := fun a b => by
  unfold scored_ge
  exact inferInstance

instance : IsTotal (String × ℚ × Nat) scored_ge := by
  constructor
  intro a b
  rcases lt_trichotomy a.2.1 b.2.1 with h | h | h
  · exact Or.inr (Or.inl h)
  · rcases Nat.le_total b.2.2 a.2.2 with hf | hf
    · exact Or.inl (Or.inr ⟨h.symm, hf⟩)
    · exact Or.inr (Or.inr ⟨h, hf⟩)
  · exact Or.inl (Or.inl h)

instance : IsTrans (String × ℚ × Nat) scored_ge := by
  constructor
  intro a b c hab hbc
  rcases hab with h1 | ⟨h1, hf1⟩
  · rcases hbc with h2 | ⟨h2, _⟩
    · exact Or.inl (h2.trans h1)
    · exact Or.inl (h2 ▸ h1)
  · rcases hbc with h2 | ⟨h2, hf2⟩
    · exact Or.inl (h1 ▸ h2)
    · exact Or.inr ⟨h1 ▸ h2, hf2.trans hf1⟩

/-- Lookup in `self.cache` (a dict keyed by `(word, threshold)`). -/
def cache_find (cache : List ((String × ℚ) × String)) (key : String × ℚ) : Option String :=
  (cache.find? (fun e => decide (e.1 = key))).map (fun e => e.2)

/-- `_update_cache`: when the cache has reached `max_cache_size`, pop the
oldest quarter (`len(cache) // 4` entries, FIFO = insertion order) before
inserting the new pair. -/
def update_cache (cache : List ((String × ℚ) × String)) (key : String × ℚ)
    (value : String) : List ((String × ℚ) × String) :=
  let kept := if max_cache_size ≤ cache.length then cache.drop (cache.length / 4) else cache
  kept ++ [(key, value)]

/-- The scored candidate triples `(candidate, score, frequency)` that
clear the threshold — the `scored_candidates` list of `correct_word`. -/
def scored_list (freqs : List (String × Nat)) (word_clean : String) (threshold : ℚ)
    (cands : List String) : List (String × ℚ × Nat) :=
  cands.filterMap (fun c =>
    let score := similarity_score word_clean c
    if threshold ≤ score then some (c, score, freq_of freqs c) else none)

/-- The fuzzy-search stage of `correct_word` (everything after the exact
and case-insensitive lookups): short-word cutoff, trigram candidates,
threshold filter, sort by `(score, frequency)` descending, best match. -/
def fuzzy_stage (s : Checker) (word : String) (word_clean : String) (threshold : ℚ)
    (max_candidates : Nat) : Option String × List ((String × ℚ) × String) :=
  if word_clean.toList.length < 3 then (none, s.cache)
  else
    let candidates := get_candidates_fast s.vocab word_clean max_candidates
    if candidates.isEmpty then (none, s.cache)
    else
      match List.insertionSort scored_ge
          (scored_list s.word_frequencies word_clean threshold candidates) with
      | [] => (none, s.cache)
      | best :: _ => (some best.1, update_cache s.cache (word, threshold) best.1)

/-- `correct_word(word, threshold, max_candidates)`: returns the corrected
word (or `none`) together with the cache after the call.  Mirrors the
source order: cache hit, punctuation strip, exact match (uncached),
case-insensitive match, then the fuzzy stage. -/
def correct_word (s : Checker) (word : String) (threshold : ℚ) (max_candidates : Nat) :
    Option String × List ((String × ℚ) × String) :=
  match cache_find s.cache (word, threshold) with
  | some v => (some v, s.cache)
  | none =>
    let word_clean := strip_punct word
    if word_clean ∈ s.vocab then (some word_clean, s.cache)
    else
      match s.vocab.filter (fun w => py_lower w == py_lower word_clean) with
      | m :: _ => (some m, update_cache s.cache (word, threshold) m)
      | [] => fuzzy_stage s word word_clean threshold max_candidates

/-- The value returned by `correct_word`. -/
def correct_word_value (s : Checker) (word : String) (threshold : ℚ)
    (max_candidates : Nat) : Option String :=
  (correct_word s word threshold max_candidates).1

/-- The checker state after a `correct_word` call made with the default
`max_candidates`. -/
def correct_word_step (s : Checker) (word : String) (threshold : ℚ) : Checker :=
  { s with cache := (correct_word s word threshold correct_word_default_max_candidates).2 }

end Ayur.Spell

namespace Ayur.Clean

/-!
Embedding of `src/preprocessing/text_cleaning.py`.  The canonical-term
dictionary `AYUR_TERMS` is loaded from a resource file at import time; the
functions below are parametrised by it as a list of
`(canonical_name, variants)` pairs in file order.
-/

/-- Python `re.sub(r"[^a-zA-Z]", "", word)`: keep ASCII letters only. -/
def letters_only (w : String) : String := String.mk (w.toList.filter Char.isAlpha)

/-- The trimmed-lowercased form of a line, `l.strip().lower()`. -/
def norm_line (l : String) : String := py_lower (py_strip l)

/-- The set (duplicate-free list) of trimmed-lowercased non-empty lines of
one page: `set(l.strip().lower() for l in page if l.strip())`. -/
def page_line_set (page : List String) : List String :=
  ((page.filter (fun l => !(py_strip l == ""))).map norm_line).dedup

/-- Number of pages whose line set contains `line` — the value
`line_counts[line]` accumulated in `detect_repeated_lines`. -/
def line_page_count (all_pages : List (List String)) (line : String) : Nat :=
  all_pages.countP (fun page => decide (line ∈ page_line_set page))

/-- `detect_repeated_lines(all_pages, min_repeat)`: the lines whose page
count is at least `min_repeat` of the total page count.  `mkRat count
total` is exactly the Python float quotient `count / total_pages`. -/
def detect_repeated_lines (all_pages : List (List String)) (min_repeat : ℚ) : List String :=
  ((all_pages.map page_line_set).flatten.dedup).filter
    (fun line => decide (min_repeat ≤ mkRat (line_page_count all_pages line) all_pages.length))

/-- `remove_headers_footers(lines, repeated_lines)` with the module-level
`CANONICAL_NAMES` passed explicitly: drop blank lines; drop lines whose
trimmed-lowercased form is in `repeated_lines` unless the (trimmed,
lowercased) line contains some canonical name case-insensitively. -/
def remove_headers_footers (canonical_names : List String) (repeated_lines : List String) :
    List String → List String
  | [] => []
  | line :: rest =>
    let l := py_strip line
    if l == "" then remove_headers_footers canonical_names repeated_lines rest
    else if repeated_lines.contains (py_lower l) then
      if canonical_names.any (fun term => contains_sub (py_lower term) (py_lower l)) then
        line :: remove_headers_footers canonical_names repeated_lines rest
      else remove_headers_footers canonical_names repeated_lines rest
    else line :: remove_headers_footers canonical_names repeated_lines rest

/-- Longest-common-subsequence length, with a fuel argument for structural
termination; always called with fuel `≥ |a| + |b|`, which suffices. -/
def lcs_fuel : Nat → List Char → List Char → Nat
  | 0, _, _ => 0
  | _, [], _ => 0
  | _, _, [] => 0
  | f + 1, a :: as, b :: bs =>
    if a = b then lcs_fuel f as bs + 1
    else max (lcs_fuel f (a :: as) bs) (lcs_fuel f as (b :: bs))

/-- Longest-common-subsequence length of two character lists. -/
def lcs_len (a b : List Char) : Nat := lcs_fuel (a.length + b.length) a b

/-- Model of `rapidfuzz.fuzz.ratio` on the 0–100 scale: the normalized
indel similarity `100·(1 − dist/(|a|+|b|)) = 100·2·lcs/(|a|+|b|)`,
and 100 when both strings are empty. -/
def fuzz_score (a b : String) : ℚ :=
  let la := a.toList.length
  let lb := b.toList.length
  if la + lb = 0 then 100
  else mkRat (200 * lcs_len a.toList b.toList) (la + lb)

/-- Model of `rapidfuzz.process.extractOne(query, choices, scorer=fuzz.ratio)`:
the choice with the highest score (the first one among equals), with its
score; `none` on an empty choice list. -/
def extract_one (query : String) : List String → Option (String × ℚ)
  | [] => none
  | c :: cs =>
    some (cs.foldl
      (fun best c' =>
        let sc := fuzz_score query c'
        if best.2 < sc then (c', sc) else best)
      (c, fuzz_score query c))

/-- `normalize_spelling(word, raw_text)`: keep letters only; return the
first canonical name whose variant list contains the cleaned word
(case-sensitively) or whose name equals it case-insensitively; otherwise
fuzzy-match against the canonical names and accept a score ≥ 90 unless a
non-empty `raw_text` was supplied that does not contain the candidate
(lowercased); otherwise return the word unchanged. -/
def normalize_spelling (terms : List (String × List String)) (word : String)
    (raw_text : Option String) : String :=
  let word_clean := letters_only word
  if word_clean == "" then word
  else
    match terms.find? (fun ct => ct.2.contains word_clean || py_lower word_clean == py_lower ct.1) with
    | some ct => ct.1
    | none =>
      match extract_one word_clean (terms.map (fun ct => ct.1)) with
      | some m =>
        if mkRat 90 1 ≤ m.2 then
          match raw_text with
          | some raw =>
            if !(raw == "") && !(contains_sub (py_lower m.1) (py_lower raw)) then word
            else m.1
          | none => m.1
        else word
      | none => word

/-- `semantic_normalization(text, raw_text)`: `text.split()` and rejoin
with single spaces after normalising each word. -/
def split_ws_fuel : Nat → List Char → List (List Char)
  | 0, _ => []
  | _, [] => []
  | f + 1, c :: cs =>
    if is_py_space c then split_ws_fuel f cs
    else (c :: cs.takeWhile (fun d => !(is_py_space d))) ::
      split_ws_fuel f (cs.dropWhile (fun d => !(is_py_space d)))

/-- Python `str.split()` (split on whitespace runs, no empty pieces). -/
def split_ws (l : List Char) : List (List Char) := split_ws_fuel (l.length + 1) l

/-- Join strings with a single separator character between them. -/
def join_with (sep : List Char) : List (List Char) → List Char
  | [] => []
  | [w] => w
  | w :: ws => w ++ sep ++ join_with sep ws

/-- `semantic_normalization`. -/
def semantic_normalization (terms : List (String × List String)) (raw_text : Option String)
    (text : List Char) : List Char :=
  join_with ([' ']) ((split_ws text).map
    (fun w => (normalize_spelling terms (String.mk w) raw_text).toList))

end Ayur.Clean

namespace Ayur.Spell

/-- Tokenizer of `correct_text`: Python
`re.findall(r'\b[\wऀ-ॿ]+\b|[^\w\s]', text)` — maximal word-character
runs become word tokens, every other non-whitespace character becomes a
one-character token, whitespace is skipped.  `run` is the current word run,
reversed. -/
def tok_scan : List Char → List Char → List (List Char)
  | [], [] => []
  | [], run => [run.reverse]
  | c :: cs, [] =>
    if is_word_char c then tok_scan cs ([c])
    else if is_py_space c then tok_scan cs []
    else [c] :: tok_scan cs []
  | c :: cs, run =>
    if is_word_char c then tok_scan cs (c :: run)
    else if is_py_space c then run.reverse :: tok_scan cs []
    else run.reverse :: [c] :: tok_scan cs []

/-- The token list of `correct_text`. -/
def tokenize_text (text : String) : List String := (tok_scan text.toList []).map String.mk

/-- Python `re.match(r'[^\w\s]', word)`: the token starts with a character
that is neither a word character nor whitespace. -/
def is_punct_tok (w : String) : Bool :=
  match w.toList with
  | c :: _ => !(is_word_char c) && !(is_py_space c)
  | [] => false

/-- `correct_text(text, threshold)`: tokenize, keep punctuation tokens,
correct word tokens through `correct_word` (falling back to the original
word on `None`), and reassemble with `''.join` — no separator.  The cache
is threaded through the calls exactly as the stateful source does. -/
def correct_text (s : Checker) (text : String) (threshold : ℚ) : String :=
  ((tokenize_text text).foldl
    (fun (acc : String × Checker) w =>
      if is_punct_tok w then (acc.1 ++ w, acc.2)
      else
        match correct_word acc.2 w threshold correct_word_default_max_candidates with
        | (some c, cache') => (acc.1 ++ c, { acc.2 with cache := cache' })
        | (none, cache') => (acc.1 ++ w, { acc.2 with cache := cache' }))
    ("", s)).1

end Ayur.Spell

namespace Ayur.Clean

/-!
The `clean_text` pipeline.  Each regex substitution of the source is
implemented as a character-list scanner with the exact leftmost/greedy
semantics of `re.sub` for that pattern (worked out case by case in the
doc comments).  Scanners that advance by more than one character use a
fuel argument for structural termination; fuel `≥` the list length always
suffices and is what the wrappers pass.
-/

/-- NFKC normalization, modelled on the characters this pipeline can meet:
NFKC expands the six ligature code points to their letter sequences and is
the identity on ASCII.  (Modelled from `unicodedata.normalize("NFKC", ·)`.) -/
def ligature_expand (c : Char) : List Char :=
  if c == 'ﬁ' then ['f', 'i'] else if c == 'ﬂ' then ['f', 'l']
  else if c == 'ﬃ' then ['f', 'f', 'i'] else if c == 'ﬄ' then ['f', 'f', 'l']
  else if c == 'ﬅ' then ['f', 't'] else if c == 'ﬆ' then ['s', 't']
  else [c]

/-- `unicodedata.normalize("NFKC", text)` (model). -/
def nfkc (l : List Char) : List Char := l.flatMap ligature_expand

/-- The explicit `ligature_map` replacement loop of `clean_text`; after
NFKC it finds nothing left to replace, but it is applied all the same. -/
def fix_ligatures (l : List Char) : List Char := l.flatMap ligature_expand

/-- The symbol class of `re.sub(r"(?<=\w)[\^<>\*~¬¦§¶]+(?=\w)", "", text)`. -/
def is_intrusive_sym (c : Char) : Bool :=
  (['^', '<', '>', '*', '~', '¬', '¦', '§', '¶']).contains c

/-- Remove every maximal run of intrusive symbols that sits directly
between two word characters (the lookbehind/lookahead make the match
all-or-nothing on the run).  `prev_word` says whether the previously read
original character was a word character; `buf` holds a pending symbol run
(in order) that started right after a word character. -/
def intrusive_scan : List Char → Bool → List Char → List Char
  | [], _, buf => buf
  | c :: cs, prev_word, buf =>
    if is_intrusive_sym c then
      if prev_word || !(buf.isEmpty) then intrusive_scan cs prev_word (buf ++ [c])
      else c :: intrusive_scan cs false []
    else if buf.isEmpty then c :: intrusive_scan cs (is_word_char c) []
    else if is_word_char c then c :: intrusive_scan cs true []
    else buf ++ (c :: intrusive_scan cs false [])

/-- `re.sub(r"(?<=\w)[\^<>\*~¬¦§¶]+(?=\w)", "", text)`. -/
def remove_intrusive (l : List Char) : List Char := intrusive_scan l false []

/-- Maximal number of consecutive `(word char, whitespace char)` pairs at
the head of the list — the repetition count of `(?:\b\w\s){2,}` anchored
here (inner `\b`s hold automatically after a whitespace character). -/
def wspair_count : List Char → Nat
  | c :: s :: rest =>
    if is_word_char c && is_py_space s then wspair_count rest + 1 else 0
  | _ => 0

/-- `re.sub(r"(?:\b\w\s){2,}", lambda m: m.group(0).replace(" ", ""), text)`:
at a word character standing at a word boundary, match the maximal run of
(word char, whitespace) pairs; with at least two pairs the run is matched
and its plain spaces (only `' '`) are deleted; otherwise scanning advances
one character.  Fuel `≥` list length suffices. -/
def despace_fuel : Nat → Bool → List Char → List Char
  | 0, _, l => l
  | _, _, [] => []
  | f + 1, prev_word, c :: cs =>
    if is_word_char c && !prev_word then
      let k := wspair_count (c :: cs)
      if 2 ≤ k then
        ((c :: cs).take (2 * k)).filter (fun d => !(d == ' ')) ++
          despace_fuel f false ((c :: cs).drop (2 * k))
      else c :: despace_fuel f true cs
    else c :: despace_fuel f (is_word_char c) cs

/-- The de-spacing step of `clean_text`. -/
def despace (l : List Char) : List Char := despace_fuel (l.length + 1) false l

/-- `re.sub(r"-\s*\n\s*", "", text)`: a hyphen followed by a whitespace
run containing a newline is removed together with that whole run (the
trailing `\s*` is greedy, so the match extends to the end of the
whitespace run).  Fuel `≥` list length suffices. -/
def dehyphen_fuel : Nat → List Char → List Char
  | 0, l => l
  | _, [] => []
  | f + 1, c :: cs =>
    if c == '-' && (cs.takeWhile is_py_space).contains '\n' then
      dehyphen_fuel f (cs.dropWhile is_py_space)
    else c :: dehyphen_fuel f cs

/-- The hyphenation-merge step of `clean_text`. -/
def dehyphen (l : List Char) : List Char := dehyphen_fuel (l.length + 1) l

/-- `re.sub(r"\s+", " ", text)`: collapse every whitespace run to a single
space.  Fuel `≥` list length suffices. -/
def collapse_ws_fuel : Nat → List Char → List Char
  | 0, l => l
  | _, [] => []
  | f + 1, c :: cs =>
    if is_py_space c then ' ' :: collapse_ws_fuel f (cs.dropWhile is_py_space)
    else c :: collapse_ws_fuel f cs

/-- Whitespace collapse followed by `.strip()`. -/
def collapse_and_strip (l : List Char) : List Char :=
  strip_chars is_py_space (collapse_ws_fuel (l.length + 1) l)

end Ayur.Clean

namespace Ayur.Clean

/-- Sentence-terminator class of the sentence tokenizer model. -/
def is_sent_term (c : Char) : Bool := c == '.' || c == '!' || c == '?'

/-- Modelled from the spec: `nltk.sent_tokenize` (the punkt model is a
trained statistical tokenizer that cannot be embedded); the spec only
requires a "language-agnostic sentence boundary heuristic".  Model: a
sentence ends at a terminator (`.`, `!`, `?`) that is followed by
whitespace; the terminator stays with its sentence, the whitespace is
skipped; text without terminators is a single sentence; the empty text
has no sentences.  On the concrete inputs used below (no terminators at
all) this agrees with punkt.  Fuel `≥` list length suffices. -/
def sent_split_fuel : Nat → List Char → List Char → List (List Char)
  | 0, acc, l => if (acc ++ l).isEmpty then [] else [acc ++ l]
  | _, acc, [] => if acc.isEmpty then [] else [acc]
  | f + 1, acc, c :: cs =>
    if is_sent_term c && (match cs with | d :: _ => is_py_space d | [] => false) then
      (acc ++ [c]) :: sent_split_fuel f [] (cs.dropWhile is_py_space)
    else sent_split_fuel f (acc ++ [c]) cs

/-- The sentence list of the (already whitespace-collapsed) text. -/
def sent_tokenize (l : List Char) : List (List Char) := sent_split_fuel (l.length + 1) [] l

/-- Consume the repetitions `(\s+\1){1,}` after a first word `w`:
whitespace followed by the same word case-insensitively, as a full word.
Returns the rest of the list after all repetitions.  Fuel `≥` list length
suffices. -/
def dedup_run_fuel (w : List Char) : Nat → List Char → List Char
  | 0, l => l
  | _, [] => []
  | f + 1, l =>
    let sp := l.takeWhile is_py_space
    let rest := l.dropWhile is_py_space
    let w2 := rest.takeWhile is_word_char
    if !(sp.isEmpty) && !(w2.isEmpty) && lower_list w2 == lower_list w then
      dedup_run_fuel w f (rest.dropWhile is_word_char)
    else l

/-- `re.sub(r"\b(\w+)(\s+\1){1,}\b", r"\1", s, flags=re.IGNORECASE)`:
collapse a whitespace-separated run of case-insensitively equal full
words to its first word (the backreference can only match a full word,
because a proper prefix of a word is followed by a word character, not
whitespace).  Fuel `≥` list length suffices. -/
def dedup_words_fuel : Nat → List Char → List Char
  | 0, l => l
  | _, [] => []
  | f + 1, c :: cs =>
    if is_word_char c then
      let w := c :: cs.takeWhile is_word_char
      let rest := cs.dropWhile is_word_char
      w ++ dedup_words_fuel f (dedup_run_fuel w (rest.length + 1) rest)
    else c :: dedup_words_fuel f cs

/-- The duplicate-consecutive-word removal step, per sentence. -/
def dedup_words (l : List Char) : List Char := dedup_words_fuel (l.length + 1) l

/-- `s[0].upper() + s[1:] if len(s) > 1 else s` (note: a 1-character
sentence is left unchanged). -/
def capitalize_sentence (s : List Char) : List Char :=
  match s with
  | c :: d :: rest => c.toUpper :: d :: rest
  | _ => s

/-- `to_paragraphs(sentences, n)`: join every chunk of `n` sentences with
single spaces and separate chunks by a blank line.  Fuel bounds the chunk
count; fuel `≥` list length suffices. -/
def paragraphs_fuel : Nat → Nat → List (List Char) → List (List Char)
  | 0, _, _ => []
  | _, _, [] => []
  | f + 1, n, l => join_with ([' ']) (l.take n) :: paragraphs_fuel f n (l.drop n)

/-- `to_paragraphs(sentences, n=3)`. -/
def to_paragraphs (n : Nat) (sentences : List (List Char)) : List Char :=
  join_with (['\n', '\n']) (paragraphs_fuel (sentences.length + 1) n sentences)

/-- `clean_text(text, raw_text)`: the full normalizer — Unicode/ligature
fixes, intrusive-symbol removal, de-spacing, hyphenation merge,
whitespace collapse, sentence tokenization, per-word canonical
normalization, duplicate-word removal, capitalization, and paragraph
regrouping (3 sentences per paragraph); if tokenization produced no
sentences the collapsed text itself is returned. -/
def clean_text (terms : List (String × List String)) (text : String)
    (raw_text : Option String) : String :=
  if text == "" then ""
  else
    let l := nfkc text.toList
    let l := fix_ligatures l
    let l := remove_intrusive l
    let l := despace l
    let l := dehyphen l
    let l := collapse_and_strip l
    let sentences := sent_tokenize l
    let sentences := sentences.map (semantic_normalization terms raw_text)
    let sentences := sentences.map dedup_words
    let sentences := sentences.map capitalize_sentence
    if sentences.isEmpty then String.mk l else String.mk (to_paragraphs 3 sentences)

end Ayur.Clean

namespace Ayur.Clean

/-- Does the (optional) raw context support a fuzzy candidate?  Following
the code's truthiness test: no context at all, an empty context string, or
a context containing the candidate's lowercase form all count as support;
only a non-empty context lacking the candidate withholds it. -/
def context_supports (context : Option String) (cand : String) : Prop :=
  match context with
  | none => True
  | some raw => raw = "" ∨ contains_sub (py_lower cand) (py_lower raw) = true

instance (context : Option String) (cand : String) : Decidable (context_supports context cand) := by
  unfold context_supports
  cases context <;> exact inferInstance

/-- The `normalize_term` contract in the spec's own phrasing (amended):
if the cleaned word equals a canonical name case-insensitively or is
literally one of its declared variants, return the first such canonical
name; otherwise accept the best fuzzy match among the canonical names
only if it scores at least 90 and the context supports it; otherwise
return the word unchanged. -/
def normalize_term_spec (terms : List (String × List String)) (word : String)
    (context : Option String) : String :=
  let cleaned := letters_only word
  if cleaned == "" then word
  else
    match terms.find? (fun ct => py_lower cleaned == py_lower ct.1 || ct.2.contains cleaned) with
    | some ct => ct.1
    | none =>
      match extract_one cleaned (terms.map (fun ct => ct.1)) with
      | some m => if mkRat 90 1 ≤ m.2 ∧ context_supports context m.1 then m.1 else word
      | none => word

end Ayur.Clean

namespace Ayur.Clean

theorem mem_detect_repeated_lines {pages : List (List String)} {f : ℚ} {l : String} :
    l ∈ detect_repeated_lines pages f ↔
      0 < line_page_count pages l ∧ f ≤ mkRat (line_page_count pages l) pages.length := by
  unfold detect_repeated_lines
  rw [List.mem_filter]
  constructor
  · rintro ⟨hmem, hcond⟩
    refine ⟨?_, of_decide_eq_true hcond⟩
    rw [List.mem_dedup, List.mem_flatten] at hmem
    obtain ⟨s, hs, hl⟩ := hmem
    rw [List.mem_map] at hs
    obtain ⟨page, hp, rfl⟩ := hs
    unfold line_page_count
    rw [List.countP_pos_iff]
    exact ⟨page, hp, decide_eq_true hl⟩
  · rintro ⟨hpos, hle⟩
    unfold line_page_count at hpos
    rw [List.countP_pos_iff] at hpos
    obtain ⟨page, hp, hdec⟩ := hpos
    refine ⟨?_, decide_eq_true hle⟩
    rw [List.mem_dedup, List.mem_flatten]
    exact ⟨page_line_set page, List.mem_map_of_mem _ hp, of_decide_eq_true hdec⟩

/-- C6: a trimmed-lowercased non-empty line is returned by
`detect_repeated_lines` exactly when the number of pages containing it,
divided by the total number of pages, is at least `min_repeat` (the first
conjunct; `mkRat c t` is the rational `c / t`, as the second conjunct
records); in particular, over 10 pages with `min_repeat = 3/10`, a line
on exactly 3 pages is included and a line on exactly 2 pages is not. -/
theorem detect_repeated_lines_threshold :
    (∀ (pages : List (List String)) (f : ℚ) (l : String),
        l ∈ detect_repeated_lines pages f ↔
          0 < line_page_count pages l ∧ f ≤ mkRat (line_page_count pages l) pages.length) ∧
    (∀ c t : Nat, (mkRat c t : ℚ) = (c : ℚ) / (t : ℚ)) ∧
    ("header") ∈ detect_repeated_lines
      [[("header")], [("header")], [("header")], [("a"), ("x")], [("b"), ("x")],
        [("c")], [("d")], [("e")], [("f")], [("g")]] (mkRat 3 10) ∧
    ("x") ∉ detect_repeated_lines
      [[("header")], [("header")], [("header")], [("a"), ("x")], [("b"), ("x")],
        [("c")], [("d")], [("e")], [("f")], [("g")]] (mkRat 3 10) := by
  refine ⟨fun pages f l => mem_detect_repeated_lines, ?_, by decide, by decide⟩
  intro c t
  rw [Rat.mkRat_eq_div]
  norm_num

/-- C10: on a single-page document, `detect_repeated_lines` returns
exactly the distinct trimmed-lowercased non-empty lines of that page
(whenever the threshold fraction is at most 1, as the default 0.3 is):
every such line has ratio 1/1 = 1, and no special case empties the
result. -/
theorem detect_repeated_single_page (page : List String) (f : ℚ) (l : String)
    (hf : f ≤ 1) :
    l ∈ detect_repeated_lines [page] f ↔ l ∈ page_line_set page := by
  rw [mem_detect_repeated_lines]
  constructor
  · rintro ⟨hpos, -⟩
    unfold line_page_count at hpos
    rw [List.countP_pos_iff] at hpos
    obtain ⟨p, hp, hdec⟩ := hpos
    rw [List.mem_singleton] at hp
    subst hp
    exact of_decide_eq_true hdec
  · intro hmem
    have hcount : line_page_count [page] l = 1 := by
      unfold line_page_count
      simp [hmem]
    rw [hcount]
    refine ⟨Nat.one_pos, ?_⟩
    have hone : (mkRat ((1 : Nat) : Int) ([page] : List (List String)).length : ℚ) = 1 := by
      rw [List.length_singleton, Rat.mkRat_eq_div]
      norm_num
    rw [hone]
    exact hf

/-- Witness for C10 at a concrete page and threshold. -/
theorem detect_repeated_single_page_witness :
    (mkRat 3 10 ≤ (1 : ℚ)) ∧
    (("hello") ∈ detect_repeated_lines [[("Hello "), ("world")]] (mkRat 3 10) ↔
      ("hello") ∈ page_line_set [("Hello "), ("world")]) :=
  ⟨by decide, detect_repeated_single_page [("Hello "), ("world")] (mkRat 3 10) ("hello")
    (by decide)⟩

end Ayur.Clean

namespace Ayur.Clean

/-- C7: `remove_headers_footers` keeps exactly the non-blank lines that
either are not in `repeated_lines` (after trimming and lowercasing) or
contain a protected canonical term as a case-insensitive substring; the
output is therefore an order-preserving subsequence of the input, and the
protected example line survives even when listed as repeated. -/
theorem remove_headers_footers_spec :
    (∀ (names repeated lines : List String),
        remove_headers_footers names repeated lines =
          lines.filter (fun line =>
            decide (py_strip line ≠ "" ∧
              (py_lower (py_strip line) ∈ repeated →
                ∃ term ∈ names,
                  contains_sub (py_lower term) (py_lower (py_strip line)) = true)))) ∧
    (∀ (names repeated lines : List String),
        (remove_headers_footers names repeated lines).Sublist lines) ∧
    remove_headers_footers [("pitta")] [("the three doshas are vata pitta kapha")]
        [("The three doshas are vata pitta kapha")] =
      [("The three doshas are vata pitta kapha")] := by
  have hfil : ∀ (names repeated lines : List String),
      remove_headers_footers names repeated lines =
        lines.filter (fun line =>
          decide (py_strip line ≠ "" ∧
            (py_lower (py_strip line) ∈ repeated →
              ∃ term ∈ names,
                contains_sub (py_lower term) (py_lower (py_strip line)) = true))) := by
    intro names repeated lines
    induction lines with
    | nil => rfl
    | cons line rest ih =>
      rw [List.filter_cons]
      unfold remove_headers_footers
      by_cases hb : py_strip line = ""
      · rw [if_pos (by simp [hb]), if_neg (by simp [hb]), ih]
      · rw [if_neg (by simp [hb])]
        by_cases hr : py_lower (py_strip line) ∈ repeated
        · rw [if_pos (by simpa using hr)]
          by_cases hp : ∃ term ∈ names,
              contains_sub (py_lower term) (py_lower (py_strip line)) = true
          · rw [if_pos (by rw [List.any_eq_true]; simpa using hp),
              if_pos (by simp [hb, hr, hp]), ih]
          · rw [if_neg (by rw [List.any_eq_true]; simpa using hp),
              if_neg (by simp [hb, hr, hp]), ih]
        · rw [if_neg (by simpa using hr), if_pos (by simp [hb, hr]), ih]
  refine ⟨hfil, fun names repeated lines => ?_, by decide⟩
  rw [hfil]
  exact List.filter_sublist lines

/-- C4 (the code violates the claimed idempotence): on the input
`"x  a  a  y  z"` one application of the normalizer yields `"X a y z"`
(duplicate-word removal creates a run of single-letter words), and a
second application collapses that run to `"Xayz"` through the de-spacing
step, so `normalize (normalize x) ≠ normalize x`. -/
theorem clean_text_not_idempotent :
    clean_text [] (clean_text [] ("x  a  a  y  z") none) none ≠
      clean_text [] ("x  a  a  y  z") none ∧
    clean_text [] ("x  a  a  y  z") none = ("X a y z") ∧
    clean_text [] ("X a y z") none = ("Xayz") := by
  refine ⟨?_, by decide, by decide⟩
  decide

end Ayur.Clean

namespace Ayur.Clean

theorem find_q_congr {α : Type} {p q : α → Bool} (h : ∀ a, p a = q a) :
    ∀ l : List α, l.find? p = l.find? q
  | [] => rfl
  | a :: as => by rw [List.find?_cons, List.find?_cons, h a, find_q_congr h as]

/-- C3 (amended): `normalize_spelling` satisfies the contract with the
variant lookup case-sensitive (only canonical names are compared
case-insensitively) and the phantom guard active only for a *non-empty*
supplied context — the first conjunct is the equivalence with the
contract written out as `normalize_term_spec`; the remaining conjuncts
check the pitta/pita instance: with canonical name "pitta" the input
"pita" scores 800/9 < 90 and is returned unchanged, with or without a
context that does not contain "pitta". -/
theorem normalize_spelling_contract :
    (∀ (terms : List (String × List String)) (word : String) (context : Option String),
        normalize_spelling terms word context = normalize_term_spec terms word context) ∧
    normalize_spelling [("pitta", [])] ("pita") (some ("the patient record")) = ("pita") ∧
    normalize_spelling [("pitta", [])] ("pita") none = ("pita") := by
  refine ⟨?_, by decide, by decide⟩
  intro terms word context
  unfold normalize_spelling normalize_term_spec
  by_cases h0 : letters_only word == ""
  · rw [if_pos h0, if_pos h0]
  · rw [if_neg h0, if_neg h0]
    rw [find_q_congr (fun ct => Bool.or_comm (ct.2.contains (letters_only word))
      (py_lower (letters_only word) == py_lower ct.1)) terms]
    cases hfind : terms.find? (fun ct =>
        py_lower (letters_only word) == py_lower ct.1 || ct.2.contains (letters_only word)) with
    | some ct => rfl
    | none =>
      cases hext : extract_one (letters_only word) (terms.map (fun ct => ct.1)) with
      | none => rfl
      | some m =>
        dsimp only
        by_cases hsc : mkRat 90 1 ≤ m.2
        · rw [if_pos hsc]
          cases context with
          | none => rw [if_pos ⟨hsc, trivial⟩]
          | some raw =>
            by_cases hraw : raw == ""
            · rw [if_pos ?side]
              case side => exact ⟨hsc, Or.inl (by simpa using hraw)⟩
              simp [hraw]
            · by_cases hsub : contains_sub (py_lower m.1) (py_lower raw) = true
              · rw [if_pos ⟨hsc, Or.inr hsub⟩]
                simp [hsub]
              · rw [if_neg ?side]
                case side =>
                  rintro ⟨-, hor⟩
                  rcases hor with h | h
                  · exact absurd (by simpa using h : raw == "") (by simpa using hraw)
                  · exact hsub h
                simp [hraw, hsub]
        · rw [if_neg hsc, if_neg (fun h => hsc h.1)]

/-- C3 counterexample: the claim as stated fails twice on the code.
With canonical dictionary `{"pitta": ["pita"]}` the word "Pita" matches
the variant "pita" case-insensitively, so the claim requires "pitta",
but `normalize_spelling` compares variants case-sensitively and returns
"Pita" unchanged.  And with a supplied (empty) context `""`, the claim's
phantom guard requires "pittaa" back unchanged (since "pitta" does not
occur in `""`), but the code's truthiness test skips the guard and
returns "pitta". -/
theorem normalize_spelling_counterexample :
    (normalize_spelling [("pitta", [("pita")])] ("Pita") none = ("Pita") ∧
      ("Pita") ≠ ("pitta")) ∧
    (normalize_spelling [("pitta", [])] ("pittaa") (some ("")) = ("pitta") ∧
      ("pitta") ≠ ("pittaa")) := by
  refine ⟨⟨by decide, by decide⟩, ⟨by decide, by decide⟩⟩

end Ayur.Clean

namespace Ayur.Spell

theorem scored_ge_score_le {a b : String × ℚ × Nat} (h : scored_ge a b) : b.2.1 ≤ a.2.1 := by
  rcases h with h | ⟨h, -⟩
  · exact le_of_lt h
  · exact le_of_eq h

theorem mem_scored_list {freqs : List (String × Nat)} {wc : String} {t : ℚ}
    {cands : List String} {x : String × ℚ × Nat} :
    x ∈ scored_list freqs wc t cands ↔
      x.1 ∈ cands ∧ x.2.1 = similarity_score wc x.1 ∧ t ≤ x.2.1 ∧ x.2.2 = freq_of freqs x.1 := by
  unfold scored_list
  rw [List.mem_filterMap]
  constructor
  · rintro ⟨c, hc, hx⟩
    dsimp only at hx
    split at hx
    · next hts =>
      injection hx with hx
      subst hx
      exact ⟨hc, rfl, hts, rfl⟩
    · cases hx
  · rintro ⟨hc, hsc, hts, hfr⟩
    refine ⟨x.1, hc, ?_⟩
    dsimp only
    rw [← hsc, if_pos hts, ← hfr]

theorem scored_list_mono {freqs : List (String × Nat)} {wc : String} {t1 t2 : ℚ}
    {cands : List String} (hle : t2 ≤ t1) {x : String × ℚ × Nat}
    (hx : x ∈ scored_list freqs wc t1 cands) : x ∈ scored_list freqs wc t2 cands := by
  obtain ⟨hc, hsc, hts, hfr⟩ := mem_scored_list.1 hx
  exact mem_scored_list.2 ⟨hc, hsc, le_trans hle hts, hfr⟩

theorem head_insertionSort_scored {l : List (String × ℚ × Nat)} {b : String × ℚ × Nat}
    {rest : List (String × ℚ × Nat)}
    (h : List.insertionSort scored_ge l = b :: rest) {x : String × ℚ × Nat} (hx : x ∈ l) :
    scored_ge b x := by
  have hs := List.sorted_insertionSort scored_ge l
  have hp : x ∈ List.insertionSort scored_ge l :=
    (List.perm_insertionSort scored_ge l).mem_iff.2 hx
  rw [h] at hs hp
  rcases List.mem_cons.1 hp with rfl | hmem
  · exact Or.inr ⟨rfl, le_refl _⟩
  · exact List.rel_of_sorted_cons hs x hmem

theorem fuzzy_stage_monotone (s : Checker) (word wc : String) (t1 t2 : ℚ) (mc : Nat)
    (hle : t2 ≤ t1) (c : String)
    (hc : (fuzzy_stage s word wc t1 mc).1 = some c) :
    ∃ c', (fuzzy_stage s word wc t2 mc).1 = some c' ∧
      similarity_score wc c ≤ similarity_score wc c' := by
  unfold fuzzy_stage at hc ⊢
  by_cases hshort : wc.toList.length < 3
  · rw [if_pos hshort] at hc
    cases hc
  · rw [if_neg hshort] at hc ⊢
    dsimp only at hc ⊢
    by_cases hemp : (get_candidates_fast s.vocab wc mc).isEmpty
    · rw [if_pos hemp] at hc
      cases hc
    · rw [if_neg hemp] at hc ⊢
      cases hsort1 : List.insertionSort scored_ge
          (scored_list s.word_frequencies wc t1 (get_candidates_fast s.vocab wc mc)) with
      | nil =>
        rw [hsort1] at hc
        cases hc
      | cons b1 r1 =>
        rw [hsort1] at hc
        dsimp only at hc
        injection hc with hc
        subst hc
        have hb1 : b1 ∈ scored_list s.word_frequencies wc t1
            (get_candidates_fast s.vocab wc mc) := by
          have hperm := List.perm_insertionSort scored_ge
            (scored_list s.word_frequencies wc t1 (get_candidates_fast s.vocab wc mc))
          rw [hsort1] at hperm
          exact hperm.mem_iff.1 (List.mem_cons_self _ _)
        have hb1' : b1 ∈ scored_list s.word_frequencies wc t2
            (get_candidates_fast s.vocab wc mc) := scored_list_mono hle hb1
        cases hsort2 : List.insertionSort scored_ge
            (scored_list s.word_frequencies wc t2 (get_candidates_fast s.vocab wc mc)) with
        | nil =>
          exfalso
          have hperm := List.perm_insertionSort scored_ge
            (scored_list s.word_frequencies wc t2 (get_candidates_fast s.vocab wc mc))
          rw [hsort2] at hperm
          rw [hperm.symm.eq_nil] at hb1'
          cases hb1'
        | cons b2 r2 =>
          dsimp only
          refine ⟨b2.1, rfl, ?_⟩
          have hb2 : b2 ∈ scored_list s.word_frequencies wc t2
              (get_candidates_fast s.vocab wc mc) := by
            have hperm := List.perm_insertionSort scored_ge
              (scored_list s.word_frequencies wc t2 (get_candidates_fast s.vocab wc mc))
            rw [hsort2] at hperm
            exact hperm.mem_iff.1 (List.mem_cons_self _ _)
          have hge := scored_ge_score_le (head_insertionSort_scored hsort2 hb1')
          have e1 := (mem_scored_list.1 hb1).2.1
          have e2 := (mem_scored_list.1 hb2).2.1
          rw [← e1, ← e2]
          exact hge

/-- C1 (amended): an exact case-sensitive vocabulary match is returned
unchanged for words of any length, before the short-word cutoff or fuzzy
search applies — provided the word is unchanged by the surrounding
punctuation strip that `correct_word` performs first, and the cache holds
no entry for `(word, threshold)` (as after construction). -/
theorem correct_word_exact_match (s : Checker) (w : String) (t : ℚ) (mc : Nat)
    (hcache : cache_find s.cache (w, t) = none)
    (hstrip : strip_punct w = w) (hmem : w ∈ s.vocab) :
    correct_word_value s w t mc = some w := by
  unfold correct_word_value correct_word
  rw [hcache]
  dsimp only
  rw [hstrip, if_pos hmem]

/-- Witness for C1 at a concrete exact-match vocabulary word. -/
theorem correct_word_exact_match_witness :
    cache_find ([] : List ((String × ℚ) × String)) (("vata"), mkRat 1 2) = none ∧
    strip_punct ("vata") = ("vata") ∧
    ("vata") ∈ ([("vata")] : List String) ∧
    correct_word_value { vocab := [("vata")], word_frequencies := [], cache := [] } ("vata")
      (mkRat 1 2) 10 = some ("vata") :=
  ⟨by decide, by decide, by decide,
    correct_word_exact_match { vocab := [("vata")], word_frequencies := [], cache := [] }
      ("vata") (mkRat 1 2) 10 (by decide) (by decide) (by decide)⟩

/-- C1 counterexample: the claim as stated fails for a vocabulary word
that carries surrounding punctuation.  With `"ab."` in the vocabulary,
`correct_word("ab.", 0.75)` strips the dot first, misses every lookup on
`"ab"`, hits the short-word cutoff and returns `None`, not `Some "ab."`. -/
theorem correct_word_strip_counterexample :
    ("ab.") ∈ ([("ab.")] : List String) ∧
    correct_word_value { vocab := [("ab.")], word_frequencies := [], cache := [] } ("ab.")
      (mkRat 3 4) 10 = none :=
  ⟨by decide, by decide⟩

/-- C2: lowering the threshold never loses an accepted correction — if
`correct_word` returns `Some c` at threshold `t1` and `t2 < t1` (both
thresholds uncached for this word), then at `t2` it returns some `c'`
whose similarity score against the stripped word is at least that of `c`. -/
theorem correct_word_monotone (s : Checker) (word : String) (t1 t2 : ℚ) (mc : Nat)
    (c : String)
    (h1 : cache_find s.cache (word, t1) = none)
    (h2 : cache_find s.cache (word, t2) = none)
    (hlt : t2 < t1)
    (hc : correct_word_value s word t1 mc = some c) :
    ∃ c', correct_word_value s word t2 mc = some c' ∧
      similarity_score (strip_punct word) c ≤ similarity_score (strip_punct word) c' := by
  unfold correct_word_value correct_word at hc ⊢
  rw [h1] at hc
  rw [h2]
  dsimp only at hc ⊢
  by_cases hex : strip_punct word ∈ s.vocab
  · rw [if_pos hex] at hc ⊢
    dsimp only at hc
    injection hc with hc
    exact ⟨strip_punct word, rfl, by rw [hc]⟩
  · rw [if_neg hex] at hc ⊢
    cases hfil : s.vocab.filter (fun w => py_lower w == py_lower (strip_punct word)) with
    | cons m ms =>
      rw [hfil] at hc
      dsimp only at hc ⊢
      injection hc with hc
      exact ⟨m, rfl, by rw [hc]⟩
    | nil =>
      rw [hfil] at hc
      dsimp only at hc ⊢
      exact fuzzy_stage_monotone s word (strip_punct word) t1 t2 mc (le_of_lt hlt) c hc

/-- Witness for C2 at a concrete word and threshold pair. -/
theorem correct_word_monotone_witness :
    ∃ c', correct_word_value { vocab := [("vata")], word_frequencies := [], cache := [] }
        ("vata") (mkRat 1 2) 10 = some c' ∧
      similarity_score (strip_punct ("vata")) ("vata") ≤
        similarity_score (strip_punct ("vata")) c' :=
  correct_word_monotone { vocab := [("vata")], word_frequencies := [], cache := [] }
    ("vata") (mkRat 9 10) (mkRat 1 2) 10 ("vata") (by decide) (by decide) (by decide)
    (by decide)

end Ayur.Spell

namespace Ayur.Spell

theorem pairwise_take_drop {α : Type} {r : α → α → Prop} :
    ∀ {l : List α}, l.Pairwise r → ∀ (k : Nat) {x y : α},
      x ∈ l.take k → y ∈ l.drop k → r x y := by
  intro l hl
  induction hl with
  | nil =>
    intro k x y hx hy
    simp at hx
  | cons hrel hp ih =>
    intro k x y hx hy
    cases k with
    | zero => simp at hx
    | succ k =>
      rw [List.take_succ_cons] at hx
      rw [List.drop_succ_cons] at hy
      rcases List.mem_cons.1 hx with rfl | hx'
      · exact hrel y ((List.drop_sublist k _).subset hy)
      · exact ih k hx' hy

/-- C5 (amended): the candidate stage of `correct_word` keeps at most
`max_candidates` candidates, every kept candidate has a trigram vote
count at least that of every voted-but-dropped vocabulary word (top-k by
vote count descending), and the default `max_candidates` of
`correct_word` is 10 (not 50; 50 is only `_get_candidates_fast`'s own,
never-used default). -/
theorem get_candidates_top_k (vocab : List String) (word : String) (k : Nat) :
    (get_candidates_fast vocab word k).length ≤ k ∧
    (∀ c ∈ get_candidates_fast vocab word k, ∀ d ∈ vocab,
        0 < cand_votes (get_trigrams (lower_list word.toList)) d →
        d ∉ get_candidates_fast vocab word k →
        cand_votes (get_trigrams (lower_list word.toList)) d ≤
          cand_votes (get_trigrams (lower_list word.toList)) c) ∧
    correct_word_default_max_candidates = 10 := by
  refine ⟨?_, ?_, rfl⟩
  · unfold get_candidates_fast
    exact List.length_take_le _ _
  · intro c hc d hd hdv hdn
    unfold get_candidates_fast at hc hdn
    dsimp only at hc hdn
    haveI htot : IsTotal String (fun a b =>
        cand_votes (get_trigrams (lower_list word.toList)) b ≤
          cand_votes (get_trigrams (lower_list word.toList)) a) :=
      ⟨fun a b => Nat.le_total _ _⟩
    haveI htr : IsTrans String (fun a b =>
        cand_votes (get_trigrams (lower_list word.toList)) b ≤
          cand_votes (get_trigrams (lower_list word.toList)) a) :=
      ⟨fun a b e hab hbe => le_trans hbe hab⟩
    have hsorted := List.sorted_insertionSort (fun a b =>
        cand_votes (get_trigrams (lower_list word.toList)) b ≤
          cand_votes (get_trigrams (lower_list word.toList)) a)
      (vocab.filter (fun x =>
        decide (0 < cand_votes (get_trigrams (lower_list word.toList)) x)))
    have hdvoted : d ∈ vocab.filter (fun x =>
        decide (0 < cand_votes (get_trigrams (lower_list word.toList)) x)) := by
      rw [List.mem_filter]
      exact ⟨hd, decide_eq_true hdv⟩
    have hdsort := (List.perm_insertionSort (fun a b =>
        cand_votes (get_trigrams (lower_list word.toList)) b ≤
          cand_votes (get_trigrams (lower_list word.toList)) a)
      (vocab.filter (fun x =>
        decide (0 < cand_votes (get_trigrams (lower_list word.toList)) x)))).mem_iff.2 hdvoted
    have hdrop : d ∈ (List.insertionSort (fun a b =>
        cand_votes (get_trigrams (lower_list word.toList)) b ≤
          cand_votes (get_trigrams (lower_list word.toList)) a)
      (vocab.filter (fun x =>
        decide (0 < cand_votes (get_trigrams (lower_list word.toList)) x)))).drop k := by
      have hsplit := (List.take_append_drop k (List.insertionSort (fun a b =>
          cand_votes (get_trigrams (lower_list word.toList)) b ≤
            cand_votes (get_trigrams (lower_list word.toList)) a)
        (vocab.filter (fun x =>
          decide (0 < cand_votes (get_trigrams (lower_list word.toList)) x))))).symm
      rw [hsplit] at hdsort
      rcases List.mem_append.1 hdsort with h | h
      · exact absurd h hdn
      · exact h
    exact pairwise_take_drop hsorted k hc hdrop

/-- Witness for C5: with two equally voted candidates and `max_candidates
= 1`, the dropped candidate's vote count does not exceed the kept one's. -/
theorem get_candidates_top_k_witness :
    cand_votes (get_trigrams (lower_list ("abx").toList)) ("abd") ≤
      cand_votes (get_trigrams (lower_list ("abx").toList)) ("abc") :=
  (get_candidates_top_k [("abc"), ("abd")] ("abx") 1).2.1 ("abc") (by decide) ("abd")
    (by decide) (by decide) (by decide)

/-- C5 counterexample: the claim's "default value of max_candidates is
50" is false for `correct_word`, whose own default is 10 — concretely,
with eleven vocabulary words sharing a trigram with the query, a default
`correct_word` call considers only the top 10 of the 11 voted candidates
(50 is the separate, unused default of `_get_candidates_fast`). -/
theorem max_candidates_default_counterexample :
    correct_word_default_max_candidates = 10 ∧
    correct_word_default_max_candidates ≠ 50 ∧
    get_candidates_fast_default_max_candidates = 50 ∧
    (get_candidates_fast [("aabc"), ("babc"), ("cabc"), ("dabc"), ("eabc"), ("fabc"),
        ("gabc"), ("habc"), ("iabc"), ("jabc"), ("kabc")] ("abc")
      correct_word_default_max_candidates).length = 10 ∧
    ([("aabc"), ("babc"), ("cabc"), ("dabc"), ("eabc"), ("fabc"), ("gabc"), ("habc"),
        ("iabc"), ("jabc"), ("kabc")].filter (fun x =>
      decide (0 < cand_votes (get_trigrams (lower_list ("abc").toList)) x))).length = 11 := by
  refine ⟨rfl, by decide, rfl, by decide, by decide⟩

theorem update_cache_length_le {cache : List ((String × ℚ) × String)}
    (h : cache.length ≤ max_cache_size) (key : String × ℚ) (v : String) :
    (update_cache cache key v).length ≤ max_cache_size := by
  unfold update_cache
  dsimp only
  by_cases hfull : max_cache_size ≤ cache.length
  · rw [if_pos hfull]
    simp only [List.length_append, List.length_drop, List.length_cons, List.length_nil]
    unfold max_cache_size at *
    omega
  · rw [if_neg hfull]
    simp only [List.length_append, List.length_cons, List.length_nil]
    omega

theorem correct_word_cache_cases (s : Checker) (w : String) (t : ℚ) (mc : Nat) :
    (correct_word s w t mc).2 = s.cache ∨
      ∃ v, (correct_word s w t mc).2 = update_cache s.cache (w, t) v := by
  unfold correct_word fuzzy_stage
  cases cache_find s.cache (w, t) with
  | some v => exact Or.inl rfl
  | none =>
    dsimp only
    by_cases hex : strip_punct w ∈ s.vocab
    · rw [if_pos hex]
      exact Or.inl rfl
    · rw [if_neg hex]
      cases s.vocab.filter (fun x => py_lower x == py_lower (strip_punct w)) with
      | cons m ms => exact Or.inr ⟨m, rfl⟩
      | nil =>
        dsimp only
        by_cases hshort : (strip_punct w).toList.length < 3
        · rw [if_pos hshort]
          exact Or.inl rfl
        · rw [if_neg hshort]
          by_cases hemp : (get_candidates_fast s.vocab (strip_punct w) mc).isEmpty
          · rw [if_pos hemp]
            exact Or.inl rfl
          · rw [if_neg hemp]
            cases List.insertionSort scored_ge (scored_list s.word_frequencies
                (strip_punct w) t (get_candidates_fast s.vocab (strip_punct w) mc)) with
            | nil => exact Or.inl rfl
            | cons b r => exact Or.inr ⟨b.1, rfl⟩

theorem correct_word_step_cache_le (s : Checker) (w : String) (t : ℚ)
    (h : s.cache.length ≤ max_cache_size) :
    (correct_word_step s w t).cache.length ≤ max_cache_size := by
  unfold correct_word_step
  dsimp only
  rcases correct_word_cache_cases s w t correct_word_default_max_candidates with
    hcase | ⟨v, hcase⟩
  · rw [hcase]
    exact h
  · rw [hcase]
    exact update_cache_length_le h (w, t) v

/-- C8: across any sequence of `correct_word` calls the cache never
exceeds `max_cache_size` entries (first conjunct), and an insert made at
or above capacity first evicts the oldest quarter (`len // 4` entries in
FIFO insertion order) before appending the new pair (second conjunct,
which is exactly `_update_cache`'s behaviour). -/
theorem cache_bound_invariant (s : Checker) (calls : List (String × ℚ))
    (h : s.cache.length ≤ max_cache_size) :
    ((calls.foldl (fun st wt => correct_word_step st wt.1 wt.2) s).cache.length ≤
        max_cache_size) ∧
    (∀ (cache : List ((String × ℚ) × String)) (key : String × ℚ) (v : String),
        update_cache cache key v =
          (if max_cache_size ≤ cache.length then cache.drop (cache.length / 4)
            else cache) ++ [(key, v)]) := by
  refine ⟨?_, fun cache key v => rfl⟩
  induction calls generalizing s with
  | nil => simpa using h
  | cons a as ih =>
    rw [List.foldl_cons]
    exact ih _ (correct_word_step_cache_le s a.1 a.2 h)

/-- Witness for C8: one cache-filling call from the empty cache stays
within the bound. -/
theorem cache_bound_invariant_witness :
    (({ vocab := [("Abc")], word_frequencies := [], cache := [] } :
        Checker).cache.length ≤ max_cache_size) ∧
    ((([(("abc" : String), mkRat 3 4)]).foldl
        (fun st wt => correct_word_step st wt.1 wt.2)
        { vocab := [("Abc")], word_frequencies := [], cache := [] }).cache.length ≤
      max_cache_size) :=
  ⟨by decide,
    (cache_bound_invariant { vocab := [("Abc")], word_frequencies := [], cache := [] }
      [(("abc"), mkRat 3 4)] (by decide)).1⟩

end Ayur.Spell

namespace Ayur.Spell

theorem string_empty_append (s : String) : ("" : String) ++ s = s := by
  cases s
  rfl

theorem tok_scan_word_run {w : List Char} (hw : ∀ c ∈ w, is_word_char c = true) :
    ∀ (l run : List Char), tok_scan (w ++ l) run = tok_scan l (w.reverse ++ run) := by
  induction w with
  | nil =>
    intro l run
    simp
  | cons c cs ih =>
    intro l run
    have hc : is_word_char c = true := hw c (List.mem_cons_self _ _)
    have hcs : ∀ x ∈ cs, is_word_char x = true := fun x hx => hw x (List.mem_cons_of_mem _ hx)
    rw [List.cons_append]
    cases run with
    | nil =>
      rw [show tok_scan (c :: (cs ++ l)) [] = tok_scan (cs ++ l) [c] by
        simp [tok_scan, hc]]
      rw [ih hcs l [c]]
      simp
    | cons r rs =>
      rw [show tok_scan (c :: (cs ++ l)) (r :: rs) = tok_scan (cs ++ l) (c :: r :: rs) by
        simp [tok_scan, hc]]
      rw [ih hcs l (c :: r :: rs)]
      simp

theorem tok_scan_spaces : ∀ (n : Nat) (l : List Char),
    tok_scan (List.replicate n ' ' ++ l) [] = tok_scan l [] := by
  intro n
  induction n with
  | zero =>
    intro l
    simp
  | succ n ih =>
    intro l
    rw [List.replicate_succ, List.cons_append]
    rw [show tok_scan (' ' :: (List.replicate n ' ' ++ l)) [] =
        tok_scan (List.replicate n ' ' ++ l) [] by simp [tok_scan, is_word_char, is_py_space]]
    exact ih l

theorem tok_scan_single_word {w : List Char} (hw : ∀ c ∈ w, is_word_char c = true)
    (hn : w ≠ []) : tok_scan w [] = [w] := by
  have h := tok_scan_word_run hw [] []
  rw [List.append_nil, List.append_nil] at h
  rw [h]
  cases hrev : w.reverse with
  | nil => exact absurd (by simpa using hrev) hn
  | cons d ds =>
    rw [show tok_scan [] (d :: ds) = [(d :: ds).reverse] from rfl]
    rw [← hrev, List.reverse_reverse]

theorem tokenize_two_words {w1 w2 : List Char} (h1 : ∀ c ∈ w1, is_word_char c = true)
    (h2 : ∀ c ∈ w2, is_word_char c = true) (h1n : w1 ≠ []) (h2n : w2 ≠ []) (n : Nat)
    (hn : 1 ≤ n) :
    tok_scan (w1 ++ List.replicate n ' ' ++ w2) [] = [w1, w2] := by
  rw [List.append_assoc]
  rw [tok_scan_word_run h1 (List.replicate n ' ' ++ w2) []]
  rw [List.append_nil]
  obtain ⟨m, rfl⟩ : ∃ m, n = m + 1 := ⟨n - 1, by omega⟩
  rw [List.replicate_succ, List.cons_append]
  cases hrev : w1.reverse with
  | nil => exact absurd (by simpa using hrev) h1n
  | cons d ds =>
    rw [show tok_scan (' ' :: (List.replicate m ' ' ++ w2)) (d :: ds) =
        (d :: ds).reverse :: tok_scan (List.replicate m ' ' ++ w2) [] by
      simp [tok_scan, is_word_char, is_py_space]]
    rw [← hrev, List.reverse_reverse]
    rw [tok_scan_spaces m w2]
    rw [tok_scan_single_word h2 h2n]

end Ayur.Spell

namespace Ayur.Spell

/-- C9: `correct_text` reassembles per-token results with an empty-string
join, so the whitespace between two word tokens does not survive: for a
text made of two word tokens separated by one or more spaces, the output
is the concatenation of the two per-token corrections (each the
`correct_word` result, or the original token on `None`) with no
intervening character. -/
theorem correct_text_join_no_spaces (s : Checker) (t : ℚ) (w1 w2 : List Char) (n : Nat)
    (h1 : ∀ c ∈ w1, is_word_char c = true) (h1n : w1 ≠ [])
    (h2 : ∀ c ∈ w2, is_word_char c = true) (h2n : w2 ≠ []) (hn : 1 ≤ n) :
    correct_text s (String.mk (w1 ++ List.replicate n ' ' ++ w2)) t =
      ((correct_word_value s (String.mk w1) t correct_word_default_max_candidates).getD
          (String.mk w1)) ++
        ((correct_word_value (correct_word_step s (String.mk w1) t) (String.mk w2) t
            correct_word_default_max_candidates).getD (String.mk w2)) := by
  have hp1 : is_punct_tok (String.mk w1) = false := by
    cases w1 with
    | nil => exact absurd rfl h1n
    | cons c cs =>
      have hc := h1 c (List.mem_cons_self _ _)
      simp [is_punct_tok, hc]
  have hp2 : is_punct_tok (String.mk w2) = false := by
    cases w2 with
    | nil => exact absurd rfl h2n
    | cons c cs =>
      have hc := h2 c (List.mem_cons_self _ _)
      simp [is_punct_tok, hc]
  unfold correct_text tokenize_text correct_word_value correct_word_step
  rw [show (String.mk (w1 ++ List.replicate n ' ' ++ w2)).toList =
      w1 ++ List.replicate n ' ' ++ w2 from rfl]
  rw [tokenize_two_words h1 h2 h1n h2n n hn]
  rw [List.map_cons, List.map_cons, List.map_nil, List.foldl_cons, List.foldl_cons,
    List.foldl_nil]
  dsimp only
  simp only [hp1, hp2, Bool.false_eq_true, if_false]
  cases hcw1 : correct_word s (String.mk w1) t correct_word_default_max_candidates with
  | mk r1 c1 =>
    cases r1 with
    | some v1 =>
      dsimp only
      cases hcw2 : correct_word { s with cache := c1 } (String.mk w2) t
          correct_word_default_max_candidates with
      | mk r2 c2 =>
        cases r2 with
        | some v2 =>
          dsimp only
          rw [string_empty_append]
          rfl
        | none =>
          dsimp only
          rw [string_empty_append]
          rfl
    | none =>
      dsimp only
      cases hcw2 : correct_word { s with cache := c1 } (String.mk w2) t
          correct_word_default_max_candidates with
      | mk r2 c2 =>
        cases r2 with
        | some v2 =>
          dsimp only
          rw [string_empty_append]
          rfl
        | none =>
          dsimp only
          rw [string_empty_append]
          rfl

/-- Witness for C9: "vata pitta" comes back as "vatapitta" — the space
between the two corrected word tokens is gone. -/
theorem correct_text_join_no_spaces_witness :
    correct_text { vocab := [("vata"), ("pitta")], word_frequencies := [], cache := [] }
        (String.mk (("vata").toList ++ List.replicate 1 ' ' ++ ("pitta").toList))
        (mkRat 3 4) =
      ((correct_word_value { vocab := [("vata"), ("pitta")], word_frequencies := [], cache := [] } (String.mk (("vata").toList)) (mkRat 3 4) correct_word_default_max_candidates).getD (String.mk (("vata").toList))) ++
        ((correct_word_value (correct_word_step { vocab := [("vata"), ("pitta")], word_frequencies := [], cache := [] } (String.mk (("vata").toList)) (mkRat 3 4)) (String.mk (("pitta").toList)) (mkRat 3 4) correct_word_default_max_candidates).getD (String.mk (("pitta").toList))) :=
  correct_text_join_no_spaces { vocab := [("vata"), ("pitta")], word_frequencies := [], cache := [] }
    (mkRat 3 4) (("vata").toList) (("pitta").toList) 1
    (by decide) (by decide) (by decide) (by decide) (by decide)

end Ayur.Spell
